import Mathlib

/-!
Verification of the two QuantConnect regression algorithm scripts
(`MarketOnOpenRegressionAlgorithm.py`, `AddOptionContractFromUniverseRegressionAlgorithm.py`)
and of the event-driven backtesting kernel their specification describes.

The strategy scripts are embedded directly from the Python source.  The kernel
components (Clock, Universe Manager, Market Data Feed, Order Book, Event
Dispatcher) are not part of the shipped source; they are modelled from the
specification text, and every such definition is marked `Modelled from the
spec`.
-/

namespace S2P

/-- Simulated instants.  A `datetime(y, m, d, h, mi, s)` value is encoded as a
single natural number, lexicographically in its six components, so that the
encoding preserves the chronological order of valid datetimes. -/
def dt6 (y m d h mi s : Nat) : Nat :=
  ((((y * 13 + m) * 32 + d) * 24 + h) * 60 + mi) * 60 + s

/-- `Symbol.Create("TWX", SecurityType.Equity, Market.USA)` -/
def twx : String := "TWX"

/-- `Symbol.Create("AAPL", SecurityType.Equity, Market.USA)` -/
def aapl : String := "AAPL"

/-- `AddOptionContractFromUniverseRegressionAlgorithm.Selector`:
returns `[self._twx]` while `self.Time <= datetime(2014, 6, 5)`, and
`[self._aapl]` afterwards.  The `fundamental` argument is unused by the
source, so it is dropped. -/
def Selector (time : Nat) : List String :=
  if time ≤ dt6 2014 6 5 0 0 0 then [twx] else [aapl]

/-- The run's start instant, from `self.SetStartDate(2014, 6, 5)`. -/
def addOptionStartTime : Nat := dt6 2014 6 5 0 0 0

/-- Order status, as used by `OnOrderEvent` and by the kernel's Order Book. -/
inductive OrderStatus
  | Submitted
  | Filled
  | Canceled
deriving DecidableEq, Repr

/-- The fields of an order event read by
`MarketOnOpenRegressionAlgorithm.OnOrderEvent`. -/
structure OrderEvent where
  OrderId : Nat
  Status : OrderStatus
  FillPrice : ℚ
deriving DecidableEq

/-- `MarketOnOpenRegressionAlgorithm.expectedFillPrices = [167.45, 165.82]`. -/
def expectedFillPrices : List ℚ := [167.45, 165.82]

/-- Outcomes of running `OnOrderEvent`: normal return, the explicitly raised
`Exception`, or Python's `IndexError` from an out-of-range list index. -/
inductive PyOutcome
  | ok
  | fillPriceException
  | indexError
deriving DecidableEq, Repr

/-- Python list indexing `xs[i]` for a possibly negative `i`: a negative index
wraps from the end; an index out of range raises `IndexError` (here `none`). -/
def pyIndex (xs : List ℚ) (i : Int) : Option ℚ :=
  if 0 ≤ i then xs.get? i.toNat
  else if 0 ≤ i + xs.length then xs.get? (i + xs.length).toNat
  else none

/-- `MarketOnOpenRegressionAlgorithm.OnOrderEvent`: returns immediately unless
the event status is `Filled`; otherwise looks up
`expectedFillPrices[orderEvent.OrderId - 1]` and raises when it differs from
the event's fill price. -/
def OnOrderEvent (e : OrderEvent) : PyOutcome :=
  if e.Status ≠ OrderStatus.Filled then PyOutcome.ok
  else
    match pyIndex expectedFillPrices ((e.OrderId : Int) - 1) with
    | none => PyOutcome.indexError
    | some expected =>
        if expected ≠ e.FillPrice then PyOutcome.fillPriceException else PyOutcome.ok

/-- Mutable strategy state of `AddOptionContractFromUniverseRegressionAlgorithm`
that `OnData` reads and writes: `self._option` and `self._traded`. -/
structure AddOptionState where
  option : Option String
  traded : Bool
deriving DecidableEq

/-- Commands the strategy issues back into the engine during `OnData`. -/
inductive Command
  | Buy (sym : String) (qty : Int)
  | RemoveOptionContract (sym : Option String)
deriving DecidableEq

/-- Whether a command is a `Buy`. -/
def Command.isBuy : Command → Bool
  | .Buy _ _ => true
  | _ => false

/-- `AddOptionContractFromUniverseRegressionAlgorithm.OnData`: buys one option
contract when `self._option` is set, `self.Securities[self._option].Price` is
nonzero and `self._traded` is still false (setting `self._traded` in the same
branch); at 2014-06-06 14:00:00 it issues `RemoveOptionContract(self._option)`.
`price` models the `Securities[...]` price lookup. -/
def OnData (st : AddOptionState) (price : String → ℚ) (time : Nat) :
    AddOptionState × List Command :=
  let bought :=
    match st.option with
    | some o =>
        if price o ≠ 0 ∧ st.traded = false then
          ({ st with traded := true }, [Command.Buy o 1])
        else (st, [])
    | none => (st, [])
  let removes :=
    if time = dt6 2014 6 6 14 0 0 then [Command.RemoveOptionContract bought.1.option]
    else []
  (bought.1, bought.2 ++ removes)

/-- One strategy callback of the run, as it affects `OnData`'s state: either an
`OnData` delivery, or an `OnSecuritiesChanged` delivery whose non-early-return
path may store a first option contract into `self._option` (the source keeps
only the first: `if self._option == None: self._option = option`). -/
inductive AlgoEvent
  | dataEvent (price : String → ℚ) (time : Nat)
  | securitiesChanged (opt : Option String)

/-- Apply one callback to the strategy state, collecting issued commands. -/
def applyEvent (st : AddOptionState) : AlgoEvent → AddOptionState × List Command
  | .dataEvent price time => OnData st price time
  | .securitiesChanged opt =>
      (if st.option = none then { st with option := opt } else st, [])

/-- Run a whole sequence of callbacks from a given state, collecting all
commands issued over the run in order. -/
def runEvents (st : AddOptionState) : List AlgoEvent → AddOptionState × List Command
  | [] => (st, [])
  | e :: es =>
      let step := applyEvent st e
      let rest := runEvents step.1 es
      (rest.1, step.2 ++ rest.2)

/-- The state set up by `Initialize`: `self._option = None`, `self._traded = False`. -/
def initialState : AddOptionState := ⟨none, false⟩

/-- Number of `Buy` commands in a command list. -/
def buyCount (cmds : List Command) : Nat := cmds.countP (fun c => c.isBuy)

/-- Kernel symbols are abstract identifiers; `Nat` is enough for the model. -/
abbrev Sym := Nat

/-- Modelled from the spec: `SecurityChanges` is an immutable pair of sets
(AddedSecurities, RemovedSecurities) produced once per step; the engine class
itself is not in the shipped source. -/
structure SecurityChanges where
  added : Finset Sym
  removed : Finset Sym
deriving DecidableEq

/-- Modelled from the spec: the associative merge backing `op_Addition` —
set-union on the Added side and on the Removed side, with a removal arriving
after an addition cancelling that Symbol's membership in the accumulated
Added set. -/
def merge (a b : SecurityChanges) : SecurityChanges :=
  ⟨(a.added \ b.removed) ∪ b.added, a.removed ∪ b.removed⟩

/-- A `SecurityChanges` with both sides empty. -/
def SecurityChanges.isEmpty (c : SecurityChanges) : Prop :=
  c.added = ∅ ∧ c.removed = ∅

/-- Modelled from the spec: the Universe Manager's state — the authoritative
active set, plus the set of manually subscribed Symbols, which survive
universe deselection. -/
structure UniState where
  active : Finset Sym
  manual : Finset Sym
deriving DecidableEq

/-- Modelled from the spec: `resolve(instant, selector)` — diffs the selector
result against the previous active set; Symbols present now but absent before
are added, present before but absent now are removed unless manually
subscribed (manual subscriptions survive deselection). -/
def resolve (st : UniState) (selected : Finset Sym) : UniState × SecurityChanges :=
  let newActive := selected ∪ st.manual
  ({ st with active := newActive },
   ⟨newActive \ st.active, st.active \ newActive⟩)

/-- Modelled from the spec: `addInstrument` — marks the Security as manually
subscribed, bypassing universe selection. -/
def addInstrument (st : UniState) (s : Sym) : UniState :=
  ⟨insert s st.active, insert s st.manual⟩

/-- Modelled from the spec: `addDerivedContract` — manually subscribes the
derived contract and its underlying, so both survive universe deselection. -/
def addDerivedContract (st : UniState) (deriv underlying : Sym) : UniState :=
  addInstrument (addInstrument st underlying) deriv

/-- Modelled from the spec: `removeInstrument` — clears the manual
subscription and removes the Security. -/
def removeInstrument (st : UniState) (s : Sym) : UniState :=
  ⟨st.active.erase s, st.manual.erase s⟩

/-- One Universe Manager interaction of a run: a per-step `resolve` with the
selector's result, or one of the strategy's subscription commands. -/
inductive UStep
  | resolveStep (selected : Finset Sym)
  | addStep (s : Sym)
  | addDerivedStep (deriv underlying : Sym)
  | removeStep (s : Sym)
deriving DecidableEq

/-- Apply one Universe Manager interaction. -/
def applyUStep (st : UniState) : UStep → UniState
  | .resolveStep selected => (resolve st selected).1
  | .addStep s => addInstrument st s
  | .addDerivedStep d u => addDerivedContract st d u
  | .removeStep s => removeInstrument st s

/-- Apply a sequence of Universe Manager interactions in order. -/
def applyUSteps (st : UniState) (steps : List UStep) : UniState :=
  steps.foldl applyUStep st

/-- Modelled from the spec: the Market Data Feed serves the active symbols for
which a price is available at the instant; symbols with no data yet are
omitted from the slice. -/
def sliceSymbols (available : Finset Sym) (active : Finset Sym) : Finset Sym :=
  active ∩ available

/-- An order-fill notification pending for dispatch, tagged with the
submission instant of its order. -/
structure OrdEvt where
  orderId : Nat
  submitted : Nat
  fillPrice : ℚ
deriving DecidableEq

/-- Oldest-submission-first ordering on pending order events. -/
def submLe (a b : OrdEvt) : Prop := a.submitted ≤ b.submitted

instance : DecidableRel submLe := fun a b => Nat.decLe a.submitted b.submitted

instance : IsTotal OrdEvt submLe := ⟨fun a b => Nat.le_total a.submitted b.submitted⟩

instance : IsTrans OrdEvt submLe := ⟨fun _ _ _ h h' => Nat.le_trans h h'⟩

/-- One event as delivered by the Event Dispatcher to the Strategy Host. -/
inductive DispatchEvent
  | changesEvent (c : SecurityChanges)
  | dataSliceEvent (d : List (Sym × ℚ))
  | orderEvent (oe : OrdEvt)
deriving DecidableEq

/-- Modelled from the spec: the Event Dispatcher's per-step delivery — in this
fixed order: (1) SecurityChanges if any Added/Removed sets are non-empty,
(2) DataSlice if non-empty, (3) each pending OrderEvent, oldest submission
first. -/
def dispatch (c : SecurityChanges) (d : List (Sym × ℚ)) (oes : List OrdEvt) :
    List DispatchEvent :=
  (if c.added = ∅ ∧ c.removed = ∅ then [] else [DispatchEvent.changesEvent c]) ++
  (if d = [] then [] else [DispatchEvent.dataSliceEvent d]) ++
  (List.insertionSort submLe oes).map DispatchEvent.orderEvent

/-- Modelled from the spec: an Order record — identifier, Symbol, signed
quantity, submission Instant, status (Submitted is the initial state, Filled
and Canceled are terminal), and a fill price set only on fill. -/
structure Order where
  id : Nat
  symbol : Sym
  quantity : Int
  submitted : Nat
  status : OrderStatus
  fillPrice : Option ℚ
deriving DecidableEq

/-- One Order Book phase of a step, as seen by a single order: an `evaluate`
against the step's slice (a partial price map), or a `cancel` command. -/
inductive BookEvent
  | sliceEvent (price : Sym → Option ℚ)
  | cancelCmd (orderId : Nat)

/-- Modelled from the spec: the Order Book's treatment of one order in one
phase.  A Submitted order fills atomically at the next available slice price;
a terminal order is not evaluated and a cancel against it is rejected with
`InvalidState`, leaving the record unchanged. -/
def orderStep (o : Order) : BookEvent → Order
  | .sliceEvent price =>
      match o.status with
      | .Submitted =>
          match price o.symbol with
          | some p => { o with status := OrderStatus.Filled, fillPrice := some p }
          | none => o
      | _ => o
  | .cancelCmd oid =>
      if oid = o.id ∧ o.status = OrderStatus.Submitted then
        { o with status := OrderStatus.Canceled }
      else o

/-- Run one order through a sequence of Order Book phases. -/
def runOrder (o : Order) : List BookEvent → Order
  | [] => o
  | e :: es => runOrder (orderStep o e) es

/-- The order's status after every prefix of the phases (the first entry is
the initial status). -/
def statusTrace (o : Order) : List BookEvent → List OrderStatus
  | [] => [o.status]
  | e :: es => o.status :: statusTrace (orderStep o e) es

/-- Number of adjacent status changes along a trace. -/
def transCount : List OrderStatus → Nat
  | [] => 0
  | [_] => 0
  | a :: b :: rest => (if a = b then 0 else 1) + transCount (b :: rest)

/-- Whether a phase settles the given order: a slice carrying a price for its
symbol, or a cancel aimed at its id. -/
def decides (o : Order) : BookEvent → Bool
  | .sliceEvent price => (price o.symbol).isSome
  | .cancelCmd oid => oid == o.id

/-- A trading session for the market-on-open model: the session's day and its
opening price. -/
structure Session where
  day : Nat
  openPrice : ℚ
deriving DecidableEq

/-- Seconds per simulated day. -/
def secondsPerDay : Nat := 86400

/-- The day an instant (in seconds) falls on. -/
def dayOf (instant : Nat) : Nat := instant / secondsPerDay

/-- Modelled from the spec: the Order Book's market-on-open fill — an order
submitted at `instant` fills at the opening price of the first session in the
(chronologically ordered) session list whose day is strictly after the
submission day; `none` when the run ends before such a session. -/
def mooFillPrice (sessions : List Session) (instant : Nat) : Option ℚ :=
  (sessions.find? (fun s => decide (dayOf instant < s.day))).map Session.openPrice

/-- The SPY sessions of the MarketOnOpen fixture run, days numbered within
October 2013 (day 7 = 2013-10-07).  The day-7 open price is never used by the
fixture orders (they are submitted at 15:00, after the open), so it is left
as 0; the day-8 and day-9 opens are the regression's expected fills. -/
def fixtureSessions : List Session :=
  [⟨7, 0⟩, ⟨8, 167.45⟩, ⟨9, 165.82⟩]

/-- The instant "day `d`, 15:00" — when the scheduled
`MarketOnOpenOrder(symbol, 100)` fires each day. -/
def at15 (d : Nat) : Nat := d * secondsPerDay + 15 * 3600

/-- Modelled from the spec: the Clock — cursor, configured end, and a
positive configured resolution (a zero resolution is a `ConfigurationError`,
rejected before the run starts). -/
structure Clock where
  cur : Nat
  endT : Nat
  res : Nat
  hres : 0 < res

/-- Modelled from the spec: `advance() -> Instant | None` — produces the next
Instant and moves the cursor by the resolution; returns `none` once the end
is exceeded, the normal termination signal. -/
def advance (c : Clock) : Option (Nat × Clock) :=
  if c.cur ≤ c.endT then some (c.cur, ⟨c.cur + c.res, c.endT, c.res, c.hres⟩)
  else none

/-- All instants a run driven by the clock performs, in order.  This is a
total function: the run over a finite date range terminates. -/
def clockRun (c : Clock) : List Nat :=
  if c.cur ≤ c.endT then
    c.cur :: clockRun ⟨c.cur + c.res, c.endT, c.res, c.hres⟩
  else []
termination_by c.endT + 1 - c.cur
decreasing_by
  have := c.hres
  omega

end S2P

/-- C9: the Selector returns exactly `[TWX]` at every instant at or before
2014-06-05 00:00:00 and exactly `[AAPL]` at every instant strictly after it;
since the run starts at 2014-06-05 00:00:00, TWX can be universe-selected at
most at the very first instant and is not selected at any later instant. -/
theorem selector_twx_only_at_start (t : Nat) :
    (t ≤ S2P.dt6 2014 6 5 0 0 0 → S2P.Selector t = [S2P.twx]) ∧
    (S2P.dt6 2014 6 5 0 0 0 < t → S2P.Selector t = [S2P.aapl]) ∧
    (S2P.addOptionStartTime < t → S2P.twx ∉ S2P.Selector t) := by
  refine ⟨fun h => ?_, fun h => ?_, fun h => ?_⟩
  · simp [S2P.Selector, h]
  · simp [S2P.Selector, Nat.not_le.mpr h]
  · have h' : S2P.dt6 2014 6 5 0 0 0 < t := h
    simp [S2P.Selector, Nat.not_le.mpr h', S2P.twx, S2P.aapl]

/-- Witness for `selector_twx_only_at_start` at the concrete instants
2014-06-05 00:00:00 and 2014-06-05 00:00:01. -/
theorem selector_twx_only_at_start_witness :
    S2P.Selector (S2P.dt6 2014 6 5 0 0 0) = [S2P.twx] ∧
    S2P.Selector (S2P.dt6 2014 6 5 0 0 1) = [S2P.aapl] := by
  refine ⟨(selector_twx_only_at_start (S2P.dt6 2014 6 5 0 0 0)).1 (le_refl _), ?_⟩
  exact (selector_twx_only_at_start (S2P.dt6 2014 6 5 0 0 1)).2.1 (by decide)

/-- C8: for an order event whose `OrderId` is 1 or 2, `OnOrderEvent` raises
an exception exactly when the status is `Filled` and the fill price differs
from `expectedFillPrices[OrderId - 1]`; for any status other than `Filled` it
returns normally (the handler mutates no state, so a normal return is the
complete behaviour). -/
theorem onOrderEvent_raises_iff (e : S2P.OrderEvent)
    (h : e.OrderId = 1 ∨ e.OrderId = 2) :
    (S2P.OnOrderEvent e ≠ S2P.PyOutcome.ok ↔
      e.Status = S2P.OrderStatus.Filled ∧
        e.FillPrice ≠ S2P.expectedFillPrices.getD (e.OrderId - 1) 0) ∧
    (e.Status ≠ S2P.OrderStatus.Filled → S2P.OnOrderEvent e = S2P.PyOutcome.ok) := by
  rcases h with h1 | h2
  · constructor
    · rcases e with ⟨oid, st, fp⟩
      subst h1
      cases st <;>
        simp [S2P.OnOrderEvent, S2P.pyIndex, S2P.expectedFillPrices, List.getD,
          eq_comm]
      by_cases hfp : fp = 167.45 <;> simp [hfp]
    · intro hst
      simp [S2P.OnOrderEvent, hst]
  · constructor
    · rcases e with ⟨oid, st, fp⟩
      subst h2
      cases st <;>
        simp [S2P.OnOrderEvent, S2P.pyIndex, S2P.expectedFillPrices, List.getD,
          eq_comm]
      by_cases hfp : fp = 165.82 <;> simp [hfp]
    · intro hst
      simp [S2P.OnOrderEvent, hst]

/-- Witness for `onOrderEvent_raises_iff`: a filled event with OrderId 1 and
the expected fill price 167.45 does not raise. -/
theorem onOrderEvent_raises_iff_witness :
    S2P.OnOrderEvent ⟨1, S2P.OrderStatus.Filled, 167.45⟩ = S2P.PyOutcome.ok := by
  have h := onOrderEvent_raises_iff ⟨1, S2P.OrderStatus.Filled, 167.45⟩ (Or.inl rfl)
  by_contra hne
  have := h.1.mp hne
  exact this.2 (by norm_num [S2P.expectedFillPrices])

namespace S2P

/-- C4: `op_Addition` merge of SecurityChanges is a pure, associative
function; it takes the union on the Added side and on the Removed side, with a
removal arriving in the later argument cancelling that Symbol's membership in
the accumulated Added set. -/
theorem merge_assoc (a b c : SecurityChanges) (x : Sym) :
    merge (merge a b) c = merge a (merge b c) ∧
    (x ∈ (merge a b).added ↔ (x ∈ a.added ∧ x ∉ b.removed) ∨ x ∈ b.added) ∧
    (x ∈ (merge a b).removed ↔ x ∈ a.removed ∨ x ∈ b.removed) := by
  refine ⟨?_, ?_, ?_⟩
  · rcases a with ⟨aA, aR⟩
    rcases b with ⟨bA, bR⟩
    rcases c with ⟨cA, cR⟩
    simp only [merge, SecurityChanges.mk.injEq]
    constructor
    · ext y
      simp only [Finset.mem_union, Finset.mem_sdiff]
      tauto
    · ext y
      simp only [Finset.mem_union]
      tauto
  · simp [merge, Finset.mem_union, Finset.mem_sdiff]
  · simp [merge, Finset.mem_union]

/-- C6: when the selector returns a result with unchanged set membership in
two consecutive steps, the second `resolve` produces an empty SecurityChanges
(both the Added and the Removed sets are empty). -/
theorem resolve_idempotent (st : UniState) (sel sel' : Finset Sym)
    (h : sel' = sel) :
    (resolve (resolve st sel).1 sel').2.isEmpty := by
  subst h
  simp [resolve, SecurityChanges.isEmpty]

/-- Witness for `resolve_idempotent` on a concrete state and selector. -/
theorem resolve_idempotent_witness :
    (resolve (resolve ⟨{1, 2}, {2}⟩ {3}).1 {3}).2.isEmpty :=
  resolve_idempotent ⟨{1, 2}, {2}⟩ {3} {3} rfl

/-- A manually subscribed Symbol that is also active stays in both sets
through any sequence of Universe Manager interactions that contains no
explicit removal of it. -/
theorem manual_mem_applyUSteps (s : Sym) :
    ∀ (steps : List UStep) (st : UniState), s ∈ st.manual → s ∈ st.active →
      (∀ stp ∈ steps, stp ≠ UStep.removeStep s) →
      s ∈ (applyUSteps st steps).manual ∧ s ∈ (applyUSteps st steps).active := by
  intro steps
  induction steps with
  | nil => exact fun st hm ha _ => ⟨hm, ha⟩
  | cons stp rest ih =>
    intro st hm ha hnr
    have hrest : ∀ x ∈ rest, x ≠ UStep.removeStep s :=
      fun x hx => hnr x (List.mem_cons_of_mem _ hx)
    cases stp with
    | resolveStep sel =>
      exact ih _ hm (Finset.mem_union_right _ hm) hrest
    | addStep t =>
      exact ih _ (Finset.mem_insert_of_mem hm) (Finset.mem_insert_of_mem ha) hrest
    | addDerivedStep d u =>
      refine ih _ ?_ ?_ hrest
      · exact Finset.mem_insert_of_mem (Finset.mem_insert_of_mem hm)
      · exact Finset.mem_insert_of_mem (Finset.mem_insert_of_mem ha)
    | removeStep t =>
      have hts : t ≠ s := by
        intro h
        exact hnr _ (List.mem_cons_self _ _) (by rw [h])
      refine ih _ ?_ ?_ hrest
      · exact Finset.mem_erase.mpr ⟨fun h => hts h.symm, hm⟩
      · exact Finset.mem_erase.mpr ⟨fun h => hts h.symm, ha⟩

/-- C2: a manually subscribed Symbol (added via `addInstrument`, or the
derivative or underlying of an `addDerivedContract`) survives every later
universe resolution — in particular any resolution that deselects it — and
keeps receiving data whenever the feed has data for it, until an explicit
`removeInstrument` of that Symbol.  The statement quantifies over all
interaction sequences without such a removal, hence over every later step of
a run. -/
theorem manual_subscription_survives (st : UniState) (s : Sym) (steps : List UStep)
    (hm : s ∈ st.manual) (ha : s ∈ st.active)
    (hnr : ∀ stp ∈ steps, stp ≠ UStep.removeStep s) :
    s ∈ (applyUSteps st steps).active ∧ s ∈ (applyUSteps st steps).manual ∧
      ∀ available : Finset Sym, s ∈ available →
        s ∈ sliceSymbols available (applyUSteps st steps).active := by
  obtain ⟨h1, h2⟩ := manual_mem_applyUSteps s steps st hm ha hnr
  exact ⟨h2, h1, fun avail hav => Finset.mem_inter.mpr ⟨h2, hav⟩⟩

/-- Witness for `manual_subscription_survives`: symbol 1 is the underlying of
a manually added contract 2; the universe then deselects it twice (selecting
only symbol 3), yet it stays active and in the slice when data is available. -/
theorem manual_subscription_survives_witness :
    1 ∈ (applyUSteps (addDerivedContract ⟨{1}, ∅⟩ 2 1)
          [UStep.resolveStep {3}, UStep.resolveStep {3}]).active ∧
    1 ∈ (applyUSteps (addDerivedContract ⟨{1}, ∅⟩ 2 1)
          [UStep.resolveStep {3}, UStep.resolveStep {3}]).manual ∧
    ∀ available : Finset Sym, 1 ∈ available →
      1 ∈ sliceSymbols available
        (applyUSteps (addDerivedContract ⟨{1}, ∅⟩ 2 1)
          [UStep.resolveStep {3}, UStep.resolveStep {3}]).active :=
  manual_subscription_survives (addDerivedContract ⟨{1}, ∅⟩ 2 1) 1
    [UStep.resolveStep {3}, UStep.resolveStep {3}]
    (by decide) (by decide) (by decide)

end S2P

namespace S2P

/-- The clock's run list steps by exactly the configured resolution, and its
length is bounded by the remaining range. -/
theorem clockRun_step_chain (n : Nat) :
    ∀ c : Clock, c.endT + 1 - c.cur ≤ n →
      List.Chain' (fun a b => b = a + c.res) (clockRun c) ∧
      (clockRun c).length ≤ c.endT + 1 - c.cur := by
  induction n with
  | zero =>
    intro c h
    have hc : ¬ c.cur ≤ c.endT := by omega
    rw [clockRun, if_neg hc]
    simp
  | succ n ih =>
    intro c h
    by_cases hc : c.cur ≤ c.endT
    · have hres := c.hres
      have hm : c.endT + 1 - (c.cur + c.res) ≤ n := by omega
      obtain ⟨ihc, ihl⟩ := ih ⟨c.cur + c.res, c.endT, c.res, c.hres⟩ hm
      rw [clockRun, if_pos hc]
      constructor
      · rw [List.chain'_cons']
        refine ⟨?_, ihc⟩
        intro y hy
        rw [clockRun] at hy
        dsimp only at hy
        by_cases hc' : c.cur + c.res ≤ c.endT
        · rw [if_pos hc'] at hy
          simp only [List.head?_cons, Option.mem_def, Option.some.injEq] at hy
          omega
        · rw [if_neg hc'] at hy
          simp at hy
      · dsimp only at ihl
        simp only [List.length_cons]
        omega
    · rw [clockRun, if_neg hc]
      simp

/-- C7: `advance` produces instants in strictly increasing order, stepping by
exactly the configured resolution; it returns `none` precisely once the end
date is exceeded (the normal termination signal), and the whole run is a
finite list whose length is bounded by the configured range — every run over
a finite date range terminates. -/
theorem clock_strictly_increasing_and_terminates (c : Clock) :
    List.Chain' (fun a b => b = a + c.res) (clockRun c) ∧
    List.Chain' (· < ·) (clockRun c) ∧
    (advance c = none ↔ c.endT < c.cur) ∧
    (clockRun c).length ≤ c.endT + 1 - c.cur := by
  obtain ⟨hchain, hlen⟩ := clockRun_step_chain (c.endT + 1 - c.cur) c (le_refl _)
  refine ⟨hchain, ?_, ?_, hlen⟩
  · refine hchain.imp ?_
    intro a b hab
    have := c.hres
    omega
  · constructor
    · intro h
      by_contra hlt
      rw [advance, if_pos (by omega)] at h
      exact Option.some_ne_none _ h
    · intro h
      rw [advance, if_neg (by omega)]

/-- The dispatcher's sorted pending order events are sorted and a permutation
of the pending set. -/
theorem dispatch_sorted_pending (oes : List OrdEvt) :
    List.Sorted submLe (List.insertionSort submLe oes) ∧
    (List.insertionSort submLe oes).Perm oes :=
  ⟨List.sorted_insertionSort submLe oes, List.perm_insertionSort submLe oes⟩

/-- C3: in a step where both the SecurityChanges and the DataSlice are
non-empty, the dispatcher delivers exactly the changes event first, the slice
event second, and then the pending order events, sorted oldest submission
first (a permutation of the pending set).  In particular the strategy
observes the SecurityChanges strictly before the DataSlice, and every
OrderEvent strictly after the slice of its step. -/
theorem dispatch_fixed_order (c : SecurityChanges) (d : List (Sym × ℚ))
    (oes : List OrdEvt) (hc : ¬ c.isEmpty) (hd : d ≠ []) :
    dispatch c d oes =
      DispatchEvent.changesEvent c :: DispatchEvent.dataSliceEvent d ::
        (List.insertionSort submLe oes).map DispatchEvent.orderEvent ∧
    List.Sorted submLe (List.insertionSort submLe oes) ∧
    (List.insertionSort submLe oes).Perm oes := by
  refine ⟨?_, dispatch_sorted_pending oes⟩
  rw [dispatch,
    if_neg (show ¬ (c.added = ∅ ∧ c.removed = ∅) from fun h => hc h), if_neg hd]
  simp

/-- Witness for `dispatch_fixed_order` on a concrete step: one added symbol,
a one-entry slice, and two pending order events submitted at instants 5 and 3
(delivered 3 first). -/
theorem dispatch_fixed_order_witness :
    dispatch ⟨{1}, ∅⟩ [(1, 10)] [⟨2, 5, 1⟩, ⟨1, 3, 2⟩] =
      DispatchEvent.changesEvent ⟨{1}, ∅⟩ ::
        DispatchEvent.dataSliceEvent [(1, 10)] ::
        (List.insertionSort submLe [⟨2, 5, 1⟩, ⟨1, 3, 2⟩]).map
          DispatchEvent.orderEvent ∧
    List.Sorted submLe (List.insertionSort submLe [⟨2, 5, 1⟩, ⟨1, 3, 2⟩]) ∧
    (List.insertionSort submLe [⟨2, 5, 1⟩, ⟨1, 3, 2⟩]).Perm
      [⟨2, 5, 1⟩, ⟨1, 3, 2⟩] :=
  dispatch_fixed_order ⟨{1}, ∅⟩ [(1, 10)] [⟨2, 5, 1⟩, ⟨1, 3, 2⟩]
    (by simp [SecurityChanges.isEmpty]) (by simp)

end S2P

namespace S2P

/-- Each callback's buys plus the remaining buy budget after it stay within
the buy budget before it (`1` while `_traded` is false, `0` afterwards). -/
theorem applyEvent_buy_budget (st : AddOptionState) (e : AlgoEvent) :
    buyCount (applyEvent st e).2 +
        (if (applyEvent st e).1.traded = true then 0 else 1) ≤
      (if st.traded = true then 0 else 1) := by
  cases e with
  | securitiesChanged opt =>
    by_cases h : st.option = none <;>
      simp [applyEvent, buyCount, h]
  | dataEvent price time =>
    rcases hopt : st.option with _ | o
    · simp only [applyEvent, OnData, hopt, buyCount]
      by_cases ht : time = dt6 2014 6 6 14 0 0 <;>
        simp [ht, Command.isBuy]
    · simp only [applyEvent, OnData, hopt, buyCount]
      by_cases hb : price o ≠ 0 ∧ st.traded = false
      · have htr : st.traded = false := hb.2
        by_cases ht : time = dt6 2014 6 6 14 0 0 <;>
          simp [hb, ht, htr, Command.isBuy]
      · by_cases ht : time = dt6 2014 6 6 14 0 0 <;>
          simp [hb, ht, Command.isBuy]

/-- The run's total buys stay within the buy budget of its starting state. -/
theorem runEvents_buy_budget :
    ∀ (evs : List AlgoEvent) (st : AddOptionState),
      buyCount (runEvents st evs).2 ≤ if st.traded = true then 0 else 1 := by
  intro evs
  induction evs with
  | nil =>
    intro st
    simp [runEvents, buyCount]
  | cons e es ih =>
    intro st
    have hstep := applyEvent_buy_budget st e
    have hrest := ih (applyEvent st e).1
    simp only [runEvents, buyCount, List.countP_append] at *
    omega

/-- C10: across an entire run from the `Initialize` state, `OnData` issues at
most one `Buy`; a single `OnData` call issues a `Buy` exactly when
`self._option` is set, its tracked price is nonzero and `self._traded` is
still false, and in that case it issues `Buy(self._option, 1)` and sets
`self._traded` in the same branch, so every subsequent `OnData` call skips
the purchase. -/
theorem onData_buys_at_most_once (evs : List AlgoEvent) (st : AddOptionState)
    (price : String → ℚ) (time : Nat) (o : String) :
    buyCount (runEvents initialState evs).2 ≤ 1 ∧
    (buyCount (OnData st price time).2 ≠ 0 ↔
      ∃ o', st.option = some o' ∧ price o' ≠ 0 ∧ st.traded = false) ∧
    (st.option = some o → price o ≠ 0 → st.traded = false →
      (OnData st price time).1.traded = true ∧
        Command.Buy o 1 ∈ (OnData st price time).2) := by
  refine ⟨?_, ?_, ?_⟩
  · simpa [initialState] using runEvents_buy_budget evs initialState
  · rcases hopt : st.option with _ | o'
    · simp only [OnData, hopt, buyCount]
      by_cases ht : time = dt6 2014 6 6 14 0 0 <;>
        simp [ht, Command.isBuy]
    · simp only [OnData, hopt, buyCount]
      by_cases hb : price o' ≠ 0 ∧ st.traded = false
      · by_cases ht : time = dt6 2014 6 6 14 0 0 <;>
          simp [hb, ht, Command.isBuy, hb.1, hb.2]
      · by_cases ht : time = dt6 2014 6 6 14 0 0 <;>
          simp [hb, ht, Command.isBuy]
  · intro hopt hp htr
    simp [OnData, hopt, hp, htr]

end S2P

namespace S2P

/-- A terminal order is left untouched by every Order Book phase: it is not
evaluated against slices, and a cancel against it is rejected. -/
theorem orderStep_terminal (o : Order) (e : BookEvent)
    (h : o.status ≠ OrderStatus.Submitted) : orderStep o e = o := by
  cases e with
  | sliceEvent price =>
    rcases hs : o.status with _ | _ | _ <;>
      simp [orderStep, hs] <;> exact absurd hs h
  | cancelCmd oid =>
    rw [orderStep, if_neg]
    exact fun hc => h hc.2

/-- A terminal order is unchanged by a whole run of phases. -/
theorem runOrder_terminal (evs : List BookEvent) :
    ∀ o : Order, o.status ≠ OrderStatus.Submitted → runOrder o evs = o := by
  induction evs with
  | nil => exact fun o _ => rfl
  | cons e es ih =>
    intro o h
    rw [runOrder, orderStep_terminal o e h]
    exact ih o h

/-- A status trace always starts with the order's current status. -/
theorem statusTrace_head_cons (o : Order) (evs : List BookEvent) :
    ∃ t, statusTrace o evs = o.status :: t := by
  cases evs with
  | nil => exact ⟨[], rfl⟩
  | cons e es => exact ⟨statusTrace (orderStep o e) es, rfl⟩

/-- Unfolding `transCount` on a trace with at least two entries. -/
theorem transCount_cons_cons (a b : OrderStatus) (t : List OrderStatus) :
    transCount (a :: b :: t) = (if a = b then 0 else 1) + transCount (b :: t) := rfl

/-- A terminal order's status trace has no transitions. -/
theorem transCount_terminal (evs : List BookEvent) :
    ∀ o : Order, o.status ≠ OrderStatus.Submitted →
      transCount (statusTrace o evs) = 0 := by
  induction evs with
  | nil => intro o _; rfl
  | cons e es ih =>
    intro o h
    obtain ⟨t, ht⟩ := statusTrace_head_cons o es
    have hz := ih o h
    rw [ht] at hz
    rw [statusTrace, orderStep_terminal o e h, ht, transCount_cons_cons,
      if_pos rfl, hz]

/-- A phase that does not settle a Submitted order leaves it unchanged. -/
theorem orderStep_undecided (o : Order) (e : BookEvent)
    (hs : o.status = OrderStatus.Submitted) (hd : decides o e = false) :
    orderStep o e = o := by
  cases e with
  | sliceEvent price =>
    rw [decides] at hd
    rcases hp : price o.symbol with _ | p
    · rw [orderStep, hs]
      simp [hp]
    · rw [hp] at hd
      simp at hd
  | cancelCmd oid =>
    rw [decides, beq_eq_false_iff_ne] at hd
    rw [orderStep, if_neg]
    exact fun hc => hd hc.1

/-- A phase that settles a Submitted order moves it to a terminal status. -/
theorem orderStep_decided (o : Order) (e : BookEvent)
    (hs : o.status = OrderStatus.Submitted) (hd : decides o e = true) :
    (orderStep o e).status = OrderStatus.Filled ∨
      (orderStep o e).status = OrderStatus.Canceled := by
  cases e with
  | sliceEvent price =>
    rw [decides, Option.isSome_iff_exists] at hd
    obtain ⟨p, hp⟩ := hd
    rw [orderStep, hs]
    simp [hp]
  | cancelCmd oid =>
    rw [decides, beq_iff_eq] at hd
    rw [orderStep, if_pos ⟨hd, hs⟩]
    exact Or.inr rfl

/-- `orderStep` never changes an order's identity or symbol. -/
theorem orderStep_id_symbol (o : Order) (e : BookEvent) :
    (orderStep o e).id = o.id ∧ (orderStep o e).symbol = o.symbol := by
  cases e with
  | sliceEvent price =>
    rcases hs : o.status with _ | _ | _ <;> simp [orderStep, hs] <;>
      rcases hp : price o.symbol with _ | p <;> simp [hp]
  | cancelCmd oid =>
    rw [orderStep]
    split <;> simp

/-- Whether a phase settles an order depends only on its id and symbol, which
`orderStep` preserves. -/
theorem decides_orderStep (o : Order) (e e' : BookEvent) :
    decides (orderStep o e') e = decides o e := by
  obtain ⟨hid, hsym⟩ := orderStep_id_symbol o e'
  cases e with
  | sliceEvent price => rw [decides, decides, hsym]
  | cancelCmd oid => rw [decides, decides, hid]

/-- The invariant "the fill price is set exactly when the status is Filled"
is preserved by every Order Book phase. -/
theorem fillPrice_inv_step (o : Order) (e : BookEvent)
    (h : o.fillPrice.isSome = true ↔ o.status = OrderStatus.Filled) :
    (orderStep o e).fillPrice.isSome = true ↔
      (orderStep o e).status = OrderStatus.Filled := by
  cases e with
  | sliceEvent price =>
    rcases hs : o.status with _ | _ | _ <;> simp only [orderStep, hs]
    · rcases hp : price o.symbol with _ | p
      · simpa [hs] using h
      · simp
    · simpa [hs] using h
    · simpa [hs] using h
  | cancelCmd oid =>
    rw [orderStep]
    split
    · rename_i hc
      show o.fillPrice.isSome = true ↔ OrderStatus.Canceled = OrderStatus.Filled
      constructor
      · intro hfp
        have hx := h.mp hfp
        rw [hc.2] at hx
        cases hx
      · intro hx
        cases hx
    · exact h

/-- The fill-price invariant holds after any run of phases. -/
theorem fillPrice_inv_run (evs : List BookEvent) :
    ∀ o : Order, (o.fillPrice.isSome = true ↔ o.status = OrderStatus.Filled) →
      ((runOrder o evs).fillPrice.isSome = true ↔
        (runOrder o evs).status = OrderStatus.Filled) := by
  induction evs with
  | nil => exact fun o h => h
  | cons e es ih =>
    intro o h
    rw [runOrder]
    exact ih _ (fillPrice_inv_step o e h)

/-- The status trace of a Submitted order settled by some phase of the run
has exactly one transition, and the run ends in a non-Submitted status. -/
theorem transCount_one (evs : List BookEvent) :
    ∀ o : Order, o.status = OrderStatus.Submitted →
      (∃ e ∈ evs, decides o e = true) →
      transCount (statusTrace o evs) = 1 ∧
        (runOrder o evs).status ≠ OrderStatus.Submitted := by
  induction evs with
  | nil =>
    intro o _ hd
    obtain ⟨e, he, _⟩ := hd
    exact absurd he (List.not_mem_nil e)
  | cons e es ih =>
    intro o hs hd
    rcases hde : decides o e with _ | _
    · have hstep : orderStep o e = o := orderStep_undecided o e hs hde
      have hd' : ∃ e' ∈ es, decides o e' = true := by
        obtain ⟨e', he', hde'⟩ := hd
        rcases List.mem_cons.mp he' with h1 | h1
        · rw [h1] at hde'
          rw [hde'] at hde
          cases hde
        · exact ⟨e', h1, hde'⟩
      obtain ⟨ih1, ih2⟩ := ih o hs hd'
      constructor
      · obtain ⟨t, ht⟩ := statusTrace_head_cons o es
        rw [ht] at ih1
        rw [statusTrace, hstep, ht, transCount_cons_cons, if_pos rfl, ih1]
      · rw [runOrder, hstep]
        exact ih2
    · have hterm : (orderStep o e).status ≠ OrderStatus.Submitted := by
        rcases orderStep_decided o e hs hde with h1 | h1 <;> rw [h1] <;>
          intro hx <;> cases hx
      constructor
      · obtain ⟨t, ht⟩ := statusTrace_head_cons (orderStep o e) es
        have hzero := transCount_terminal es (orderStep o e) hterm
        rw [ht] at hzero
        have hne : o.status ≠ (orderStep o e).status := by
          rw [hs]
          exact fun hx => hterm hx.symm
        rw [statusTrace, ht, transCount_cons_cons, if_neg hne, hzero]
      · rw [runOrder, runOrder_terminal es _ hterm]
        exact hterm

/-- C5: an order starting Submitted with no fill price, once settled by some
phase of the run (a slice carrying a price for its symbol, or a cancel), makes
exactly one status transition over the whole run, ending in exactly one of the
terminal statuses Filled or Canceled; its fill price is set exactly when it
ended Filled; and no order is evaluated after reaching a terminal status —
every phase leaves a terminal order unchanged. -/
theorem order_lifecycle (o : Order) (evs : List BookEvent)
    (hs : o.status = OrderStatus.Submitted) (hfp : o.fillPrice = none)
    (hd : ∃ e ∈ evs, decides o e = true) :
    transCount (statusTrace o evs) = 1 ∧
    ((runOrder o evs).status = OrderStatus.Filled ∨
      (runOrder o evs).status = OrderStatus.Canceled) ∧
    ((runOrder o evs).fillPrice.isSome = true ↔
      (runOrder o evs).status = OrderStatus.Filled) ∧
    (∀ o' : Order, o'.status ≠ OrderStatus.Submitted →
      ∀ e : BookEvent, orderStep o' e = o') := by
  obtain ⟨h1, h2⟩ := transCount_one evs o hs hd
  refine ⟨h1, ?_, ?_, fun o' ho' e => orderStep_terminal o' e ho'⟩
  · rcases hx : (runOrder o evs).status with _ | _ | _
    · exact absurd hx h2
    · exact Or.inl rfl
    · exact Or.inr rfl
  · refine fillPrice_inv_run evs o ?_
    rw [hfp, hs]
    constructor
    · intro hx
      cases hx
    · intro hx
      cases hx

/-- Witness for `order_lifecycle`: order 1 on symbol 0, submitted at instant
0, run against a single slice that prices symbol 0 at 5. -/
theorem order_lifecycle_witness :
    transCount (statusTrace ⟨1, 0, 100, 0, OrderStatus.Submitted, none⟩
        [BookEvent.sliceEvent (fun _ => some 5)]) = 1 ∧
    ((runOrder ⟨1, 0, 100, 0, OrderStatus.Submitted, none⟩
        [BookEvent.sliceEvent (fun _ => some 5)]).status = OrderStatus.Filled ∨
      (runOrder ⟨1, 0, 100, 0, OrderStatus.Submitted, none⟩
        [BookEvent.sliceEvent (fun _ => some 5)]).status = OrderStatus.Canceled) ∧
    ((runOrder ⟨1, 0, 100, 0, OrderStatus.Submitted, none⟩
        [BookEvent.sliceEvent (fun _ => some 5)]).fillPrice.isSome = true ↔
      (runOrder ⟨1, 0, 100, 0, OrderStatus.Submitted, none⟩
        [BookEvent.sliceEvent (fun _ => some 5)]).status = OrderStatus.Filled) ∧
    (∀ o' : Order, o'.status ≠ OrderStatus.Submitted →
      ∀ e : BookEvent, orderStep o' e = o') :=
  order_lifecycle ⟨1, 0, 100, 0, OrderStatus.Submitted, none⟩
    [BookEvent.sliceEvent (fun _ => some 5)] rfl rfl
    ⟨BookEvent.sliceEvent (fun _ => some 5), List.mem_singleton.mpr rfl, rfl⟩

end S2P

namespace S2P

/-- In a chronologically sorted session list, `find?` for "day strictly after
`d`" returns exactly the earliest such session. -/
theorem find_next_session (sessions : List Session) :
    ∀ (s : Session) (d : Nat),
      sessions.Pairwise (fun a b => a.day < b.day) → s ∈ sessions → d < s.day →
      (∀ s' ∈ sessions, d < s'.day → s.day ≤ s'.day) →
      sessions.find? (fun x => decide (d < x.day)) = some s := by
  induction sessions with
  | nil =>
    intro s d _ hm _ _
    exact absurd hm (List.not_mem_nil s)
  | cons a tl ih =>
    intro s d hp hm hlt hmin
    by_cases ha : d < a.day
    · have heq : s = a := by
        rcases List.mem_cons.mp hm with h1 | h1
        · exact h1
        · have h2 : a.day < s.day := (List.pairwise_cons.mp hp).1 s h1
          have h3 : s.day ≤ a.day := hmin a (List.mem_cons_self a tl) ha
          omega
      rw [List.find?_cons_of_pos _ (by simpa using ha), heq]
    · have hs : s ∈ tl := by
        rcases List.mem_cons.mp hm with h1 | h1
        · rw [h1] at hlt
          exact absurd hlt ha
        · exact h1
      rw [List.find?_cons_of_neg _ (by simpa using ha)]
      exact ih s d (List.pairwise_cons.mp hp).2 hs hlt
        (fun s' hs' h' => hmin s' (List.mem_cons_of_mem a hs') h')

/-- C1: a market-on-open order submitted at any instant of day N fills at
exactly the opening price of the next trading session — the earliest session
whose day is strictly after N (skipping non-trading days, which simply have
no session in the list); the fill depends only on the submission day, not on
the time of day; and on the 2013-10-07 fixture, the orders submitted at 15:00
on 2013-10-07 and 2013-10-08 fill at 167.45 and 165.82 respectively (the
first two expected fill prices, for OrderId 1 and 2). -/
theorem moo_fills_at_next_open (sessions : List Session) (s : Session)
    (instant : Nat)
    (hsorted : sessions.Pairwise (fun a b => a.day < b.day))
    (hmem : s ∈ sessions)
    (hafter : dayOf instant < s.day)
    (hmin : ∀ s' ∈ sessions, dayOf instant < s'.day → s.day ≤ s'.day) :
    mooFillPrice sessions instant = some s.openPrice ∧
    (∀ t t' : Nat, dayOf t = dayOf t' →
      mooFillPrice sessions t = mooFillPrice sessions t') ∧
    mooFillPrice fixtureSessions (at15 7) = some 167.45 ∧
    mooFillPrice fixtureSessions (at15 8) = some 165.82 ∧
    expectedFillPrices = [167.45, 165.82] := by
  refine ⟨?_, ?_, rfl, rfl, rfl⟩
  · rw [mooFillPrice, find_next_session sessions s (dayOf instant)
      hsorted hmem hafter hmin]
    rfl
  · intro t t' h
    rw [mooFillPrice, mooFillPrice, h]

/-- Witness for `moo_fills_at_next_open`: the fixture's first order, submitted
2013-10-07 15:00, fills at the 2013-10-08 session open of 167.45. -/
theorem moo_fills_at_next_open_witness :
    mooFillPrice fixtureSessions (at15 7) = some (167.45 : ℚ) ∧
    mooFillPrice fixtureSessions (at15 8) = some (165.82 : ℚ) :=
  ⟨(moo_fills_at_next_open fixtureSessions ⟨8, 167.45⟩ (at15 7)
      (by decide) (by simp [fixtureSessions]) (by decide)
      (by decide)).1,
   (moo_fills_at_next_open fixtureSessions ⟨9, 165.82⟩ (at15 8)
      (by decide) (by simp [fixtureSessions]) (by decide)
      (by decide)).1⟩

end S2P
